import Mathlib

/-!
# Verification of `bitcoin/base58.py` (Base58Check encoding/decoding)

Shallow embedding of the module `bitcoin/base58.py`: byte strings are
`List Nat` (each element intended in `[0,255]`), text is `List Char`,
fallible operations return `Except Base58Error _`, and the external hash
collaborator `bitcoin.core.Hash` is a function parameter.
-/

/-- The 58-character alphabet `b58_digits` from the source. -/
def b58_digits : List Char :=
  "123456789ABCDEFGHJKLMNPQRSTUVWXYZabcdefghijkmnopqrstuvwxyz".data

/-- Error kinds. The source raises `InvalidBase58Error` (here `invalidChar`),
`Base58ChecksumError` (here `checksumMismatch`) and `ValueError` for an
out-of-range version (here `invalidVersion`). `malformedPayload` is the
spec's extra taxonomy entry (the source never raises it), and `indexError`
models a potential Python `IndexError` on `verbyte[0]` (shown unreachable). -/
inductive Base58Error where
  | invalidChar (c : Char)
  | checksumMismatch
  | invalidVersion
  | malformedPayload
  | indexError
  deriving DecidableEq, Repr

/-- `int('0x0' + hexlify(b), 16)`: the big-endian integer value of a byte
string. -/
def beNat (b : List Nat) : Nat := b.foldl (fun n c => n * 256 + c) 0

/-- `b58_digits[r]`: the character for digit value `r`. -/
def b58Char (r : Nat) : Char := b58_digits.getD r ' '

/-- `encode(b)` from the source: the base-58 digit string of the big-endian
integer value of `b` (via repeated `divmod(n, 58)`, remainders reversed),
prefixed with one `'1'` per leading zero byte of `b`. -/
def encode (b : List Nat) : List Char :=
  let n := beNat b
  let res := ((Nat.digits 58 n).reverse).map b58Char
  let pad := (b.takeWhile (fun c => c == 0)).length
  List.replicate pad (b58Char 0) ++ res

/-- `b58_digits.index(c)` guarded by `c in b58_digits`: `none` when the
character is not in the alphabet, otherwise its first index. -/
def b58Index : List Char → Char → Option Nat
  | [], _ => none
  | d :: ds, c => if c == d then some 0 else (b58Index ds c).map (· + 1)

/-- The character loop of `decode`: `n = n*58 + digit` per character, raising
`InvalidBase58Error` at the first character outside the alphabet. -/
def decodeLoop : List Char → Nat → Except Base58Error Nat
  | [], n => .ok n
  | c :: cs, n =>
    match b58Index b58_digits c with
    | none => .error (.invalidChar c)
    | some digit => decodeLoop cs (n * 58 + digit)

/-- The `'%x' % n` / pad-to-even / `unhexlify` step of `decode`: the minimal
big-endian byte string of `n`, except that `'%x' % 0` is `"0"`, which is
padded to `"00"` and so yields the single byte `0x00`. -/
def minBytes (n : Nat) : List Nat :=
  if n = 0 then [0] else (Nat.digits 256 n).reverse

/-- `decode(s)` from the source: empty input gives empty bytes; otherwise
accumulate the base-58 value, convert back to bytes, and prepend one zero
byte per leading `'1'` of `s` excluding its final character (`s[:-1]`). -/
def decode (s : List Char) : Except Base58Error (List Nat) :=
  if s = [] then .ok []
  else
    match decodeLoop s 0 with
    | .error e => .error e
    | .ok n =>
      let res := minBytes n
      let pad := ((s.dropLast).takeWhile (fun c => c == b58Char 0)).length
      .ok (List.replicate pad 0 ++ res)

/-- Modelled from the spec: `bitcoin.core.Hash` (file `bitcoin/core.py`, not
included under `src/`) is the double application of the external
32-byte-digest collaborator `H`. -/
def coreHash (H : List Nat → List Nat) (b : List Nat) : List Nat := H (H b)

namespace CBase58Data

/-- `CBase58Data.__new__`: decode, split into `k[0:1]`, `k[1:-4]`, `k[-4:]`,
recompute the checksum over `verbyte + data` and compare; on success the
object carries the payload bytes and the numeric version `verbyte[0]`.
Indexing `verbyte[0]` on an empty `verbyte` would be a Python `IndexError`. -/
def new (H : List Nat → List Nat) (s : List Char) :
    Except Base58Error (Nat × List Nat) :=
  match decode s with
  | .error e => .error e
  | .ok k =>
    let verbyte := k.take 1
    let data := (k.drop 1).take (k.length - 5)
    let check0 := k.drop (k.length - 4)
    let check1 := (coreHash H (verbyte ++ data)).take 4
    if check0 = check1 then
      match verbyte with
      | [] => .error .indexError
      | v :: _ => .ok (v, data)
    else .error .checksumMismatch

/-- `CBase58Data.from_bytes(data, nVersion)`: range-check the version and
store it with the payload. -/
def from_bytes (data : List Nat) (nVersion : Int) :
    Except Base58Error (Int × List Nat) :=
  if 0 ≤ nVersion ∧ nVersion ≤ 255 then .ok (nVersion, data)
  else .error .invalidVersion

/-- `CBase58Data.__str__`: encode `version_byte + data + checksum`, the
checksum being the first 4 bytes of `bitcoin.core.Hash(version_byte + data)`. -/
def str (H : List Nat → List Nat) (nVersion : Nat) (data : List Nat) :
    List Char :=
  let vs := nVersion :: data
  let check := (coreHash H vs).take 4
  encode (vs ++ check)

end CBase58Data

/-- The spec's `serialize(version, payload)`: `CBase58Data.from_bytes`
followed by `__str__`. -/
def serialize (H : List Nat → List Nat) (nVersion : Int) (data : List Nat) :
    Except Base58Error (List Char) :=
  match CBase58Data.from_bytes data nVersion with
  | .error e => .error e
  | .ok (v, d) => .ok (CBase58Data.str H v.toNat d)

/-- The spec's `parse(s)`: constructing `CBase58Data(s)`. -/
def parse (H : List Nat → List Nat) (s : List Char) :
    Except Base58Error (Nat × List Nat) :=
  CBase58Data.new H s

/-- Written from the spec's words, for comparison with `minBytes`: the
"big-endian minimal byte string" of `n`, where minimal is read as "no bytes
at all when `n = 0`". -/
def minBytesSpec (n : Nat) : List Nat := (Nat.digits 256 n).reverse

/-- A fixed all-zero 32-byte digest collaborator. -/
def zeroHash : List Nat → List Nat := fun _ => List.replicate 32 0

/-- A fixed all-one 32-byte digest collaborator. -/
def oneHash : List Nat → List Nat := fun _ => List.replicate 32 1

/-! ## Alphabet facts -/

lemma b58Char_zero : b58Char 0 = '1' := rfl

lemma b58Index_b58Char : ∀ d, d < 58 → b58Index b58_digits (b58Char d) = some d := by
  decide

lemma b58Char_ne_one : ∀ d, d < 58 → d ≠ 0 → b58Char d ≠ '1' := by
  decide

lemma b58Index_eq_none_iff (l : List Char) (c : Char) :
    b58Index l c = none ↔ c ∉ l := by
  induction l with
  | nil => simp [b58Index]
  | cons d ds ih =>
    by_cases h : c = d
    · subst h
      simp [b58Index]
    · simp only [b58Index, beq_iff_eq, if_neg h, List.mem_cons, not_or]
      cases hds : b58Index ds c <;> simp_all

/-! ## The accumulator loop of `decode` -/

lemma decodeLoop_map (ds : List Nat) (h : ∀ d ∈ ds, d < 58) :
    ∀ a, decodeLoop (ds.map b58Char) a = .ok (ds.foldl (fun n d => n * 58 + d) a) := by
  induction ds with
  | nil => intro a; rfl
  | cons d t ih =>
    intro a
    have hd : d < 58 := h d (List.mem_cons_self d t)
    have ht : ∀ x ∈ t, x < 58 := fun x hx => h x (List.mem_cons_of_mem d hx)
    simp only [List.map_cons, decodeLoop, b58Index_b58Char d hd, List.foldl_cons]
    exact ih ht (a * 58 + d)

lemma foldl_base (B : Nat) (l : List Nat) : ∀ a : Nat,
    l.foldl (fun n d => n * B + d) a = a * B ^ l.length + Nat.ofDigits B l.reverse := by
  induction l with
  | nil => intro a; simp [Nat.ofDigits_nil]
  | cons d t ih =>
    intro a
    simp only [List.foldl_cons, ih, List.reverse_cons, Nat.ofDigits_append,
      List.length_reverse, List.length_cons, Nat.ofDigits_singleton]
    ring

lemma foldl_zero_pad (B p : Nat) (l : List Nat) :
    ((List.replicate p 0) ++ l).foldl (fun n d => n * B + d) 0 =
      l.foldl (fun n d => n * B + d) 0 := by
  induction p with
  | zero => simp
  | succ p ih => simpa [List.replicate_succ] using ih

lemma foldl_eq_zero_iff (B : Nat) (hB : 1 ≤ B) (l : List Nat) : ∀ a : Nat,
    l.foldl (fun n d => n * B + d) a = 0 ↔ a = 0 ∧ ∀ x ∈ l, x = 0 := by
  induction l with
  | nil => simp
  | cons d t ih =>
    intro a
    simp only [List.foldl_cons, ih, List.mem_cons, Nat.add_eq_zero, Nat.mul_eq_zero]
    constructor
    · rintro ⟨⟨ha | hB0, hd⟩, ht⟩
      · exact ⟨ha, fun x hx => hx.elim (fun hxd => hxd ▸ hd) (ht x)⟩
      · omega
    · rintro ⟨ha, hall⟩
      exact ⟨⟨Or.inl ha, hall d (Or.inl rfl)⟩, fun x hx => hall x (Or.inr hx)⟩

lemma beNat_eq (l : List Nat) : beNat l = Nat.ofDigits 256 l.reverse := by
  simpa [beNat] using foldl_base 256 l 0

lemma beNat_eq_zero_iff (l : List Nat) : beNat l = 0 ↔ ∀ x ∈ l, x = 0 := by
  simpa [beNat] using foldl_eq_zero_iff 256 (by norm_num) l 0

/-! ## Shape of `encode` and decoding of all-ones strings -/

lemma encode_eq (b : List Nat) :
    encode b = List.replicate ((b.takeWhile (fun c => c == 0)).length) '1'
      ++ ((Nat.digits 58 (beNat b)).reverse).map b58Char := rfl

lemma decode_all_ones (k : Nat) (hk : 1 ≤ k) :
    decode (List.replicate k '1') = .ok (List.replicate k 0) := by
  have hne : List.replicate k '1' ≠ [] := by
    cases k with
    | zero => omega
    | succ k => simp [List.replicate_succ]
  have hmap : List.replicate k '1' = (List.replicate k 0).map b58Char := by
    rw [List.map_replicate, b58Char_zero]
  have hloop : decodeLoop (List.replicate k '1') 0 = .ok 0 := by
    rw [hmap, decodeLoop_map (List.replicate k 0) (by simp) 0]
    have h0 : (List.replicate k 0 ++ ([] : List Nat)).foldl (fun n d => n * 58 + d) 0 =
        ([] : List Nat).foldl (fun n d => n * 58 + d) 0 := foldl_zero_pad 58 k []
    simpa using h0
  have hpad : ((List.replicate k '1').dropLast.takeWhile (fun c => c == b58Char 0)).length
      = k - 1 := by
    simp [b58Char_zero, List.takeWhile_replicate]
  have hfin : List.replicate (k - 1) (0 : Nat) ++ [0] = List.replicate k 0 := by
    rw [← List.replicate_succ' (k - 1) (0 : Nat)]
    congr 1
    omega
  rw [decode, if_neg hne, hloop]
  show Except.ok (List.replicate ((List.takeWhile (fun c => c == b58Char 0)
      (List.replicate k '1').dropLast).length) 0 ++ [0]) = _
  rw [hpad, hfin]

/-! ## Round-trip: `decode (encode b) = b` -/

lemma head_dropWhile_false {p : Nat → Bool} {l t : List Nat} {c : Nat}
    (h : l.dropWhile p = c :: t) : p c = false := by
  induction l with
  | nil => simp at h
  | cons a l ih =>
    rw [List.dropWhile_cons] at h
    by_cases hp : p a = true
    · rw [if_pos hp] at h
      exact ih h
    · rw [if_neg hp] at h
      injection h with h1 h2
      subst h1
      simpa using hp

lemma takeWhile_replicate_append (p : Char → Bool) (k : Nat) (a : Char)
    (hp : p a = true) (l : List Char) :
    (List.replicate k a ++ l).takeWhile p = List.replicate k a ++ l.takeWhile p := by
  induction k with
  | zero => simp
  | succ k ih => simp [List.replicate_succ, List.takeWhile_cons, hp, ih]

lemma decode_encode (b : List Nat) (hb : ∀ x ∈ b, x < 256) :
    decode (encode b) = .ok b := by
  have htw : b.takeWhile (fun c => c == 0) =
      List.replicate ((b.takeWhile (fun c => c == 0)).length) 0 := by
    apply List.eq_replicate_of_mem
    intro x hx
    simpa using List.mem_takeWhile_imp hx
  rcases hdw : b.dropWhile (fun c => c == 0) with _ | ⟨c, rest⟩
  · -- all of b is zero bytes
    have hsplit : List.replicate ((b.takeWhile (fun c => c == 0)).length) 0 = b := by
      conv_rhs => rw [← List.takeWhile_append_dropWhile (fun c : Nat => c == 0) b]
      rw [hdw, List.append_nil, ← htw]
    have hn : beNat b = 0 := by
      rw [(beNat_eq_zero_iff b)]
      intro x hx
      have hx' : x ∈ b.takeWhile (fun c => c == 0) := by
        have : x ∈ b.takeWhile (fun c => c == 0) ++ b.dropWhile (fun c => c == 0) := by
          rw [List.takeWhile_append_dropWhile]
          exact hx
        rw [hdw, List.append_nil] at this
        exact this
      exact List.eq_of_mem_replicate (htw ▸ hx')
    rcases hp : (b.takeWhile (fun c => c == 0)).length with _ | p
    · -- no leading zeros at all: b = []
      have hbnil : b = [] := by
        rw [← hsplit, hp]
        rfl
      subst hbnil
      have he : encode [] = [] := by
        rw [encode_eq]
        simp [beNat]
      rw [he]
      rfl
    · -- b = replicate (p+1) 0
      have henc : encode b = List.replicate (p + 1) '1' := by
        rw [encode_eq, hn, hp]
        simp [Nat.digits_zero]
      rw [henc, decode_all_ones (p + 1) (by omega)]
      rw [← hsplit, hp]
  · -- b has a non-zero byte; c is the first one
    have hc : c ≠ 0 := by
      have := head_dropWhile_false hdw
      simpa using this
    have hsplit : List.replicate ((b.takeWhile (fun c => c == 0)).length) 0
        ++ (c :: rest) = b := by
      conv_rhs => rw [← List.takeWhile_append_dropWhile (fun c : Nat => c == 0) b]
      rw [hdw, ← htw]
    have hmem : ∀ x ∈ c :: rest, x ∈ b := by
      intro x hx
      rw [← hsplit]
      exact List.mem_append_right _ hx
    have hbeNat : beNat b = beNat (c :: rest) := by
      conv_lhs => rw [← hsplit]
      exact foldl_zero_pad 256 _ _
    have hn0 : beNat b ≠ 0 := by
      rw [hbeNat]
      intro h
      exact hc ((beNat_eq_zero_iff _).mp h c (List.mem_cons_self c rest))
    have hds : Nat.digits 58 (beNat b) ≠ [] := Nat.digits_ne_nil_iff_ne_zero.mpr hn0
    -- the byte-rebuild step returns exactly the non-zero tail
    have hminb : minBytes (beNat b) = c :: rest := by
      rw [minBytes, if_neg hn0, hbeNat, beNat_eq]
      rw [Nat.digits_ofDigits 256 (by norm_num) ((c :: rest).reverse)
        (fun l hl => hb l (hmem l (List.mem_reverse.mp hl)))
        (fun h => by
          have h1 : ((c :: rest).reverse).getLast? = some c := by
            rw [List.getLast?_reverse]
            rfl
          rw [List.getLast?_eq_getLast _ h] at h1
          injection h1 with h2
          rw [h2]
          exact hc)]
      exact List.reverse_reverse _
    -- digit-side facts
    have hdig : ∀ d ∈ List.replicate ((b.takeWhile (fun c => c == 0)).length) 0
        ++ (Nat.digits 58 (beNat b)).reverse, d < 58 := by
      intro d hd
      rcases List.mem_append.mp hd with h | h
      · rw [List.eq_of_mem_replicate h]
        norm_num
      · exact Nat.digits_lt_base (by norm_num) (List.mem_reverse.mp h)
    have henc : encode b = (List.replicate ((b.takeWhile (fun c => c == 0)).length) 0
        ++ (Nat.digits 58 (beNat b)).reverse).map b58Char := by
      rw [encode_eq, List.map_append, List.map_replicate, b58Char_zero]
    have hloop : decodeLoop (encode b) 0 = .ok (beNat b) := by
      rw [henc, decodeLoop_map _ hdig 0]
      congr 1
      rw [foldl_zero_pad, foldl_base]
      simp [Nat.ofDigits_digits]
    -- head of the digit string is not '1'
    have hlast_ne : (Nat.digits 58 (beNat b)).getLast hds ≠ 0 := by
      have := Nat.getLast_digit_ne_zero 58 hn0
      exact this
    have hlast_lt : (Nat.digits 58 (beNat b)).getLast hds < 58 :=
      Nat.digits_lt_base (by norm_num) (List.getLast_mem hds)
    have hhead_ne : b58Char ((Nat.digits 58 (beNat b)).getLast hds) ≠ '1' :=
      b58Char_ne_one _ hlast_lt hlast_ne
    have hres_head : (((Nat.digits 58 (beNat b)).reverse).map b58Char).head? =
        some (b58Char ((Nat.digits 58 (beNat b)).getLast hds)) := by
      rw [List.head?_map, List.head?_reverse, List.getLast?_eq_getLast _ hds]
      rfl
    -- compute the leading-'1' count of the encoded string minus its last char
    rcases hres : ((Nat.digits 58 (beNat b)).reverse).map b58Char with _ | ⟨r0, rt⟩
    · exfalso
      have : (Nat.digits 58 (beNat b)).reverse = [] := by
        cases h' : (Nat.digits 58 (beNat b)).reverse
        · rfl
        · rw [h'] at hres
          simp at hres
      exact hds (by simpa using this)
    have hr0 : r0 = b58Char ((Nat.digits 58 (beNat b)).getLast hds) := by
      rw [hres] at hres_head
      injection hres_head
    have hr0ne : (r0 == b58Char 0) = false := by
      rw [b58Char_zero, hr0]
      simpa using hhead_ne
    have henc1 : encode b = List.replicate ((b.takeWhile (fun c => c == 0)).length) '1'
        ++ (r0 :: rt) := by
      rw [encode_eq, hres]
    have hs_ne : encode b ≠ [] := by
      rw [henc1]
      simp
    have htail_tw : (List.takeWhile (fun c => c == b58Char 0) (r0 :: rt).dropLast) = [] := by
      cases rt with
      | nil => rfl
      | cons r1 rt' =>
        rw [List.dropLast_cons₂, List.takeWhile_cons, hr0ne]
        rfl
    have hpad' : (((encode b).dropLast).takeWhile (fun c => c == b58Char 0)).length
        = (b.takeWhile (fun c => c == 0)).length := by
      rw [henc1, List.dropLast_append_of_ne_nil _ (by simp),
        takeWhile_replicate_append _ _ _ (by rw [b58Char_zero]; rfl) _, htail_tw,
        List.append_nil, List.length_replicate]
    rw [decode, if_neg hs_ne, hloop]
    show Except.ok (List.replicate
      ((((encode b).dropLast).takeWhile (fun c => c == b58Char 0)).length) 0
      ++ minBytes (beNat b)) = _
    rw [hpad', hminb, hsplit]

/-! ## Computation rules for `CBase58Data.__new__` -/

lemma new_err_of_decode (H : List Nat → List Nat) (s : List Char) (e : Base58Error)
    (hdec : decode s = .error e) : CBase58Data.new H s = .error e := by
  rw [CBase58Data.new, hdec]

lemma new_ok_of_decode (H : List Nat → List Nat) (s : List Char) (k : List Nat)
    (hdec : decode s = .ok k) :
    CBase58Data.new H s =
      (if k.drop (k.length - 4) =
          (coreHash H (k.take 1 ++ (k.drop 1).take (k.length - 5))).take 4 then
        match k.take 1 with
        | [] => .error .indexError
        | v :: _ => .ok (v, (k.drop 1).take (k.length - 5))
      else .error .checksumMismatch) := by
  rw [CBase58Data.new, hdec]

lemma new_str (H : List Nat → List Nat) (v : Nat) (p : List Nat)
    (h32 : ∀ x, (H x).length = 32) (hHb : ∀ x, ∀ y ∈ H x, y < 256)
    (hv : v < 256) (hp : ∀ x ∈ p, x < 256) :
    CBase58Data.new H (CBase58Data.str H v p) = .ok (v, p) := by
  have hchk_len : ((coreHash H (v :: p)).take 4).length = 4 := by
    rw [List.length_take, coreHash, h32]
    omega
  have hbytes : ∀ x ∈ (v :: p) ++ (coreHash H (v :: p)).take 4, x < 256 := by
    intro x hx
    rcases List.mem_append.mp hx with h | h
    · rcases List.mem_cons.mp h with h | h
      · exact h ▸ hv
      · exact hp x h
    · exact hHb _ x (List.take_subset 4 _ h)
  have hdec : decode (CBase58Data.str H v p) =
      .ok ((v :: p) ++ (coreHash H (v :: p)).take 4) :=
    decode_encode _ hbytes
  rw [new_ok_of_decode H _ _ hdec]
  have hklen : ((v :: p) ++ (coreHash H (v :: p)).take 4).length = p.length + 5 := by
    simp [hchk_len]
  have htake1 : ((v :: p) ++ (coreHash H (v :: p)).take 4).take 1 = [v] := rfl
  have hdata : (((v :: p) ++ (coreHash H (v :: p)).take 4).drop 1).take
      (((v :: p) ++ (coreHash H (v :: p)).take 4).length - 5) = p := by
    rw [hklen]
    show (p ++ (coreHash H (v :: p)).take 4).take (p.length + 5 - 5) = p
    rw [Nat.add_sub_cancel]
    exact List.take_left p _
  rw [htake1, hdata]
  have hcond : ((v :: p) ++ (coreHash H (v :: p)).take 4).drop
      (((v :: p) ++ (coreHash H (v :: p)).take 4).length - 4) =
      (coreHash H ([v] ++ p)).take 4 := by
    have h4 : ((v :: p) ++ (coreHash H (v :: p)).take 4).length - 4 = p.length + 1 := by
      rw [hklen]
      omega
    rw [h4]
    have : ((v :: p) : List Nat).length = p.length + 1 := by simp
    rw [List.drop_left' this]
    rfl
  rw [if_pos hcond]

/-! ## Error analysis of `decode` -/

lemma decodeLoop_error_form : ∀ (s : List Char) (a : Nat) (e : Base58Error),
    decodeLoop s a = .error e → ∃ c ∈ s, c ∉ b58_digits ∧ e = .invalidChar c := by
  intro s
  induction s with
  | nil =>
    intro a e h
    simp [decodeLoop] at h
  | cons c cs ih =>
    intro a e h
    simp only [decodeLoop] at h
    cases hidx : b58Index b58_digits c with
    | none =>
      rw [hidx] at h
      injection h with h'
      exact ⟨c, List.mem_cons_self c cs, (b58Index_eq_none_iff _ _).mp hidx, h'.symm⟩
    | some d =>
      rw [hidx] at h
      obtain ⟨c', hc', hnc', he⟩ := ih _ _ h
      exact ⟨c', List.mem_cons_of_mem _ hc', hnc', he⟩

lemma decodeLoop_ok_of_valid : ∀ (s : List Char) (a : Nat),
    (∀ c ∈ s, c ∈ b58_digits) → ∃ n, decodeLoop s a = .ok n := by
  intro s
  induction s with
  | nil => exact fun a _ => ⟨a, rfl⟩
  | cons c cs ih =>
    intro a h
    have hc : c ∈ b58_digits := h c (List.mem_cons_self c cs)
    cases hidx : b58Index b58_digits c with
    | none => exact absurd ((b58Index_eq_none_iff _ _).mp hidx) (by simpa using hc)
    | some d =>
      obtain ⟨n, hn⟩ := ih (a * 58 + d) (fun x hx => h x (List.mem_cons_of_mem _ hx))
      refine ⟨n, ?_⟩
      simp only [decodeLoop, hidx]
      exact hn

lemma decodeLoop_error_of_invalid : ∀ (s : List Char) (a : Nat) (c : Char),
    c ∈ s → c ∉ b58_digits → ∃ e, decodeLoop s a = .error e := by
  intro s
  induction s with
  | nil => simp
  | cons d ds ih =>
    intro a c hc hnc
    cases hidx : b58Index b58_digits d with
    | none =>
      refine ⟨.invalidChar d, ?_⟩
      simp only [decodeLoop, hidx]
    | some i =>
      have hd : d ∈ b58_digits := by
        by_contra hnd
        rw [(b58Index_eq_none_iff _ _).mpr hnd] at hidx
        cases hidx
      have hcs : c ∈ ds := by
        rcases List.mem_cons.mp hc with h | h
        · exact absurd (h ▸ hd) hnc
        · exact h
      obtain ⟨e, he⟩ := ih (a * 58 + i) c hcs hnc
      refine ⟨e, ?_⟩
      simp only [decodeLoop, hidx]
      exact he

lemma decode_error_form (s : List Char) (e : Base58Error) (h : decode s = .error e) :
    ∃ c ∈ s, c ∉ b58_digits ∧ e = .invalidChar c := by
  by_cases hs : s = []
  · rw [decode, if_pos hs] at h
    simp at h
  · rw [decode, if_neg hs] at h
    cases hl : decodeLoop s 0 with
    | error e' =>
      rw [hl] at h
      injection h with h'
      obtain ⟨c, hc, hnc, he⟩ := decodeLoop_error_form s 0 e' hl
      exact ⟨c, hc, hnc, h' ▸ he⟩
    | ok n =>
      rw [hl] at h
      simp at h

/-! ## Error analysis of `CBase58Data.__new__` -/

lemma new_checksum_short (H : List Nat → List Nat) (h32 : ∀ x, (H x).length = 32)
    (s : List Char) (k : List Nat) (hdec : decode s = .ok k) (hk : k.length < 4) :
    CBase58Data.new H s = .error .checksumMismatch := by
  rw [new_ok_of_decode H s k hdec]
  rw [if_neg]
  intro h
  have h1 := congrArg List.length h
  rw [List.length_drop, List.length_take, coreHash, h32] at h1
  omega

lemma new_error_cases (H : List Nat → List Nat) (s : List Char) (e : Base58Error)
    (h : CBase58Data.new H s = .error e) :
    (∃ c, e = .invalidChar c) ∨ e = .checksumMismatch ∨ e = .indexError := by
  cases hdec : decode s with
  | error e' =>
    rw [new_err_of_decode H s e' hdec] at h
    injection h with h'
    obtain ⟨c, _, _, he⟩ := decode_error_form s e' hdec
    exact Or.inl ⟨c, by rw [← h', he]⟩
  | ok k =>
    rw [new_ok_of_decode H s k hdec] at h
    by_cases hcond : k.drop (k.length - 4) =
        (coreHash H (k.take 1 ++ (k.drop 1).take (k.length - 5))).take 4
    · rw [if_pos hcond] at h
      cases hk : k.take 1 with
      | nil =>
        rw [hk] at h
        injection h with h'
        exact Or.inr (Or.inr h'.symm)
      | cons v t =>
        rw [hk] at h
        simp at h
    · rw [if_neg hcond] at h
      injection h with h'
      exact Or.inr (Or.inl h'.symm)

lemma new_ne_malformed (H : List Nat → List Nat) (s : List Char) :
    CBase58Data.new H s ≠ .error .malformedPayload := by
  intro h
  rcases new_error_cases H s _ h with ⟨c, hc⟩ | hc | hc <;> simp at hc

lemma new_ne_indexError (H : List Nat → List Nat) (h32 : ∀ x, (H x).length = 32)
    (s : List Char) : CBase58Data.new H s ≠ .error .indexError := by
  intro h
  cases hdec : decode s with
  | error e' =>
    rw [new_err_of_decode H s e' hdec] at h
    obtain ⟨c, _, _, he⟩ := decode_error_form s e' hdec
    rw [he] at hdec
    injection h with h'
    rw [he] at h'
    simp at h'
  | ok k =>
    rw [new_ok_of_decode H s k hdec] at h
    by_cases hcond : k.drop (k.length - 4) =
        (coreHash H (k.take 1 ++ (k.drop 1).take (k.length - 5))).take 4
    · rw [if_pos hcond] at h
      cases hk : k.take 1 with
      | nil =>
        have hk0 : k = [] := by
          cases k with
          | nil => rfl
          | cons a t => simp at hk
        subst hk0
        have h1 := congrArg List.length hcond
        rw [List.length_drop, List.length_take, coreHash, h32] at h1
        simp at h1
      | cons v t =>
        rw [hk] at h
        simp at h
    · rw [if_neg hcond] at h
      injection h with h'
      simp at h'

/-! ## Shared byte-range fact for serialized strings -/

lemma str_bytes_lt (H : List Nat → List Nat) (v : Nat) (p : List Nat)
    (hHb : ∀ x, ∀ y ∈ H x, y < 256) (hv : v < 256) (hp : ∀ x ∈ p, x < 256) :
    ∀ x ∈ (v :: p) ++ (coreHash H (v :: p)).take 4, x < 256 := by
  intro x hx
  rcases List.mem_append.mp hx with h | h
  · rcases List.mem_cons.mp h with h | h
    · exact h ▸ hv
    · exact hp x h
  · exact hHb _ x (List.take_subset 4 _ h)

lemma decodeLoop_digits (n : Nat) :
    decodeLoop (((Nat.digits 58 n).reverse).map b58Char) 0 = .ok n := by
  rw [decodeLoop_map _ (fun d hd => Nat.digits_lt_base (by norm_num)
    (List.mem_reverse.mp hd)) 0]
  congr 1
  rw [foldl_base]
  simp [Nat.ofDigits_digits]

/-! ## The claims -/

/-- Claim C1: for every byte string `b`, `decode (encode b)` returns exactly
`b`, including inputs that are empty, all-zero, or have leading zero bytes. -/
theorem c1_decode_encode_roundtrip (b : List Nat) (hb : ∀ x ∈ b, x < 256) :
    decode (encode b) = .ok b :=
  decode_encode b hb

theorem c1_witness : decode (encode [0, 0, 7, 255]) = .ok [0, 0, 7, 255] :=
  c1_decode_encode_roundtrip [0, 0, 7, 255] (by decide)

/-- Claim C2: for any deterministic 32-byte-digest collaborator, any version
in [0,255] and any payload, serialization succeeds and parsing the produced
string succeeds and returns exactly that version and payload. -/
theorem c2_serialize_parse_roundtrip (H : List Nat → List Nat) (v : Nat)
    (p : List Nat) (h32 : ∀ x, (H x).length = 32)
    (hHb : ∀ x, ∀ y ∈ H x, y < 256) (hv : v ≤ 255) (hp : ∀ x ∈ p, x < 256) :
    serialize H (v : Int) p = .ok (CBase58Data.str H v p) ∧
    parse H (CBase58Data.str H v p) = .ok (v, p) := by
  constructor
  · rw [serialize, CBase58Data.from_bytes,
      if_pos ⟨Int.natCast_nonneg v, by exact_mod_cast hv⟩]
    simp
  · exact new_str H v p h32 hHb (by omega) hp

theorem c2_witness :
    serialize zeroHash ((0 : Nat) : Int) [] = .ok (CBase58Data.str zeroHash 0 []) ∧
    parse zeroHash (CBase58Data.str zeroHash 0 []) = .ok (0, []) :=
  c2_serialize_parse_roundtrip zeroHash 0 [] (fun x => by simp [zeroHash])
    (fun x y hy => by simp [zeroHash, List.mem_replicate] at hy; omega)
    (by omega) (by simp)

/-- Claim C4: the 4-byte checksum that `__str__` embeds (the last 4 decoded
bytes of the serialized string) equals the first 4 bytes of the double
application of the external hash collaborator to `version_byte ‖ payload`. -/
theorem c4_checksum_is_double_hash (H : List Nat → List Nat) (v : Nat)
    (p : List Nat) (hHb : ∀ x, ∀ y ∈ H x, y < 256) (hv : v < 256)
    (hp : ∀ x ∈ p, x < 256) :
    decode (CBase58Data.str H v p) = .ok ((v :: p) ++ (H (H (v :: p))).take 4) :=
  decode_encode _ (str_bytes_lt H v p hHb hv hp)

theorem c4_witness :
    decode (CBase58Data.str zeroHash 0 []) =
      .ok ([0] ++ (zeroHash (zeroHash [0])).take 4) :=
  c4_checksum_is_double_hash zeroHash 0 []
    (fun x y hy => by simp [zeroHash, List.mem_replicate] at hy; omega)
    (by omega) (by simp)

/-- Claim C3, counterexample: `parse` on a string whose decode is shorter
than 5 bytes fails with `checksumMismatch`, not `malformedPayload` (which
the source never raises); moreover a 4-byte decode can even parse
successfully when the bytes happen to equal the checksum of their own first
byte, so "fails for decoded length < 5" is itself false. -/
theorem c3_counterexample :
    parse zeroHash ['1'] = .error .checksumMismatch ∧
    Base58Error.checksumMismatch ≠ Base58Error.malformedPayload ∧
    parse oneHash (encode [1, 1, 1, 1]) = .ok (1, []) := by
  refine ⟨rfl, by simp, ?_⟩
  have hdec : decode (encode [1, 1, 1, 1]) = .ok [1, 1, 1, 1] :=
    decode_encode [1, 1, 1, 1] (by decide)
  rw [parse, new_ok_of_decode oneHash _ _ hdec]
  rfl

/-- Claim C3 (amended): whenever `decode` succeeds with fewer than 4 bytes,
`parse` fails with `checksumMismatch` (there is no too-short check and no
`malformedPayload` error in the code; length exactly 4 may even succeed). -/
theorem c3_short_input_checksum_error (H : List Nat → List Nat)
    (s : List Char) (k : List Nat) (h32 : ∀ x, (H x).length = 32)
    (hdec : decode s = .ok k) (hk : k.length < 4) :
    parse H s = .error .checksumMismatch ∧
    ∀ H' t, parse H' t ≠ .error .malformedPayload := by
  constructor
  · exact new_checksum_short H h32 s k hdec hk
  · exact fun H' t => new_ne_malformed H' t

theorem c3_witness :
    parse zeroHash ['1'] = .error Base58Error.checksumMismatch ∧
    ∀ H' t, parse H' t ≠ .error Base58Error.malformedPayload :=
  c3_short_input_checksum_error zeroHash ['1'] [0]
    (fun x => by simp [zeroHash]) rfl (by simp)

/-- Claim C5, counterexample: on input `"1"` the code returns the single
byte `0x00`, while the claim's reading (minimal rendering of `n = 0` is the
empty byte string, and no padding is counted for a one-character input)
predicts the empty byte string. -/
theorem c5_counterexample :
    decode ['1'] = .ok [0] ∧
    List.replicate ((['1'].dropLast.takeWhile (fun c => c == '1')).length) 0
      ++ minBytesSpec 0 = [] := by
  constructor
  · rfl
  · simp [minBytesSpec]

/-- Claim C5 (amended): decode of a non-empty all-alphabet string is the
zero padding (leading `'1'` count excluding the final character) followed
by `minBytes n`, where `minBytes` renders `n > 0` as its minimal big-endian
bytes (value-exact, no leading zero byte) and renders `n = 0` as the single
byte `0x00` rather than as no bytes. -/
theorem c5_decode_shape (s : List Char) (hne : s ≠ [])
    (hall : ∀ c ∈ s, c ∈ b58_digits) :
    ∃ n, decodeLoop s 0 = .ok n ∧
      decode s = .ok (List.replicate
        ((s.dropLast.takeWhile (fun c => c == '1')).length) 0 ++ minBytes n) ∧
      minBytes 0 = [0] ∧
      (n ≠ 0 → minBytes n = (Nat.digits 256 n).reverse ∧
        (Nat.digits 256 n).getLast? ≠ some 0 ∧
        Nat.ofDigits 256 (Nat.digits 256 n) = n) := by
  obtain ⟨n, hn⟩ := decodeLoop_ok_of_valid s 0 hall
  refine ⟨n, hn, ?_, rfl, ?_⟩
  · rw [decode, if_neg hne, hn]
    rfl
  · intro hn0
    refine ⟨by rw [minBytes, if_neg hn0], ?_, Nat.ofDigits_digits 256 n⟩
    rw [List.getLast?_eq_getLast _ (Nat.digits_ne_nil_iff_ne_zero.mpr hn0)]
    intro h
    injection h with h'
    exact Nat.getLast_digit_ne_zero 256 hn0 h'

theorem c5_witness :
    ∃ n, decodeLoop ['1'] 0 = .ok n ∧
      decode ['1'] = .ok (List.replicate
        ((['1'].dropLast.takeWhile (fun c => c == '1')).length) 0 ++ minBytes n) ∧
      minBytes 0 = [0] ∧
      (n ≠ 0 → minBytes n = (Nat.digits 256 n).reverse ∧
        (Nat.digits 256 n).getLast? ≠ some 0 ∧
        Nat.ofDigits 256 (Nat.digits 256 n) = n) :=
  c5_decode_shape ['1'] (by simp) (by decide)

/-- Claim C6: `decode s` fails exactly when `s` contains a character outside
the 58-symbol alphabet, and every failure is `invalidChar` (the
`InvalidBase58Error`) carrying such a character; this is the sole error
condition of this layer. -/
theorem c6_decode_fails_iff_invalid_char (s : List Char) :
    ((∃ e, decode s = .error e) ↔ ∃ c ∈ s, c ∉ b58_digits) ∧
    ∀ e, decode s = .error e → ∃ c ∈ s, c ∉ b58_digits ∧ e = .invalidChar c := by
  refine ⟨⟨?_, ?_⟩, fun e he => decode_error_form s e he⟩
  · rintro ⟨e, he⟩
    obtain ⟨c, hc, hnc, _⟩ := decode_error_form s e he
    exact ⟨c, hc, hnc⟩
  · rintro ⟨c, hc, hnc⟩
    have hne : s ≠ [] := by
      rintro rfl
      simp at hc
    obtain ⟨e, he⟩ := decodeLoop_error_of_invalid s 0 c hc hnc
    refine ⟨e, ?_⟩
    rw [decode, if_neg hne, he]

theorem c6_witness :
    ∃ c ∈ ['0'], c ∉ b58_digits ∧ Base58Error.invalidChar '0' = .invalidChar c :=
  (c6_decode_fails_iff_invalid_char ['0']).2 (.invalidChar '0') rfl

/-- Claim C7: `from_bytes` (and hence `serialize`) fails with the
`InvalidVersion` error exactly when the version lies outside `[0, 255]`,
and succeeds exactly when it lies inside. -/
theorem c7_version_range (H : List Nat → List Nat) (v : Int) (p : List Nat) :
    (CBase58Data.from_bytes p v = .error .invalidVersion ↔ ¬(0 ≤ v ∧ v ≤ 255)) ∧
    (serialize H v p = .error .invalidVersion ↔ ¬(0 ≤ v ∧ v ≤ 255)) ∧
    (CBase58Data.from_bytes p v = .ok (v, p) ↔ (0 ≤ v ∧ v ≤ 255)) := by
  refine ⟨?_, ?_, ?_⟩
  · rw [CBase58Data.from_bytes]
    by_cases h : 0 ≤ v ∧ v ≤ 255
    · rw [if_pos h]
      simp [h]
    · rw [if_neg h]
      simp [h]
  · rw [serialize, CBase58Data.from_bytes]
    by_cases h : 0 ≤ v ∧ v ≤ 255
    · rw [if_pos h]
      simp [h]
    · rw [if_neg h]
      simp [h]
  · rw [CBase58Data.from_bytes]
    by_cases h : 0 ≤ v ∧ v ≤ 255
    · rw [if_pos h]
      simp [h]
    · rw [if_neg h]
      simp [h]

/-- Claim C8: `encode b` is exactly one `'1'` per leading zero byte of `b`,
followed by the base-58 digit string of the big-endian integer value of `b`
(the digit suffix re-accumulates to that value). When `b` is entirely zero
the leading-zero count is all of `b` and the digit suffix is empty, so the
output is exactly `b.length` copies of `'1'`; when `b` contains a non-zero
byte the digit suffix does not start with `'1'`, so the `'1'` count is
exact in that case too. -/
theorem c8_leading_zero_encoding (b : List Nat) :
    encode b = List.replicate ((b.takeWhile (fun c => c == 0)).length) '1'
      ++ (encode b).drop ((b.takeWhile (fun c => c == 0)).length) ∧
    decodeLoop ((encode b).drop ((b.takeWhile (fun c => c == 0)).length)) 0 =
      .ok (beNat b) ∧
    ((∀ x ∈ b, x = 0) →
      (b.takeWhile (fun c => c == 0)).length = b.length ∧
      encode b = List.replicate b.length '1') ∧
    ((∃ x ∈ b, x ≠ 0) →
      ((encode b).drop ((b.takeWhile (fun c => c == 0)).length)).head? ≠
        some '1') := by
  have hdrop : (encode b).drop ((b.takeWhile (fun c => c == 0)).length) =
      ((Nat.digits 58 (beNat b)).reverse).map b58Char := by
    rw [encode_eq]
    exact List.drop_left' (by simp)
  refine ⟨?_, ?_, ?_, ?_⟩
  · rw [hdrop]
    exact encode_eq b
  · rw [hdrop]
    exact decodeLoop_digits (beNat b)
  · intro h0
    have hb0 : b = List.replicate b.length 0 := List.eq_replicate_of_mem h0
    have hlen : (b.takeWhile (fun c => c == 0)).length = b.length := by
      conv_lhs => rw [hb0]
      rw [List.takeWhile_replicate]
      simp
    refine ⟨hlen, ?_⟩
    have hn : beNat b = 0 := (beNat_eq_zero_iff b).mpr h0
    rw [encode_eq, hn, hlen]
    simp [Nat.digits_zero]
  · rintro ⟨x, hx, hxne⟩
    have hn0 : beNat b ≠ 0 := fun h => hxne ((beNat_eq_zero_iff b).mp h x hx)
    have hds : Nat.digits 58 (beNat b) ≠ [] :=
      Nat.digits_ne_nil_iff_ne_zero.mpr hn0
    rw [hdrop, List.head?_map, List.head?_reverse,
      List.getLast?_eq_getLast _ hds]
    simp only [Option.map_some']
    intro hcontra
    injection hcontra with h1
    exact b58Char_ne_one _
      (Nat.digits_lt_base (by norm_num) (List.getLast_mem hds))
      (Nat.getLast_digit_ne_zero 58 hn0) h1

theorem c8_witness :
    (([0].takeWhile (fun c => c == 0)).length = [0].length ∧
      encode [0] = List.replicate [0].length '1') ∧
    ((encode [2]).drop (([2].takeWhile (fun c => c == 0)).length)).head? ≠
      some '1' :=
  ⟨(c8_leading_zero_encoding [0]).2.2.1 (by decide),
   (c8_leading_zero_encoding [2]).2.2.2 ⟨2, by decide, by decide⟩⟩

/-- Claim C9: decoding a string of `k ≥ 1` copies of `'1'` returns exactly
`k` zero bytes: the padding scan counts only `k - 1`, but the accumulated
integer 0 renders as the single byte `0x00`, which exactly compensates. -/
theorem c9_all_ones_roundtrip (k : Nat) (hk : 1 ≤ k) :
    decode (List.replicate k '1') = .ok (List.replicate k 0) :=
  decode_all_ones k hk

theorem c9_witness : decode (List.replicate 3 '1') = .ok (List.replicate 3 0) :=
  c9_all_ones_roundtrip 3 (by omega)

/-- Claim C10: for every 32-byte-digest collaborator, parsing the empty
string fails with the checksum error (the empty claimed checksum can never
equal the 4-byte computed one), and no parse ever reaches the
version-byte indexing on an empty decode (no `IndexError`). -/
theorem c10_empty_string_checksum_error (H : List Nat → List Nat)
    (h32 : ∀ x, (H x).length = 32) :
    parse H [] = .error .checksumMismatch ∧
    ∀ s, parse H s ≠ .error .indexError := by
  constructor
  · exact new_checksum_short H h32 [] [] rfl (by simp)
  · exact fun s => new_ne_indexError H h32 s

theorem c10_witness : parse zeroHash [] = .error Base58Error.checksumMismatch :=
  (c10_empty_string_checksum_error zeroHash (fun x => by simp [zeroHash])).1
